import Mathlib

set_option maxRecDepth 100000
set_option maxHeartbeats 4000000

/-!
Shallow embedding of the MuSig / MuSig2 test helper module
(`test/functional/test_framework/musig.py`) and the revocable-secret ladder
(`test/functional/feature_ln_ptlc.py`) of the repository, together with the
external collaborators they use (SHA-256 from `hashlib`, and the secp256k1
curve primitives that the spec lists in §6 as supplied by a trusted curve
library).  Python `bytes` values are modelled as `List Nat` with entries
below 256; Python `int` is `Nat` or `Int` as the sign discipline of the code
requires; fallible code returns `Except Err` and Python `None` becomes
`Option`.  A `hashlib` hasher object is modelled by the byte stream absorbed
so far: `update` appends, `copy` duplicates the stream, and `digest` applies
SHA-256 to the absorbed stream, which is exactly the semantics of
incremental hashing.
-/

/-- Errors raised by the embedded Python code: failed `assert` statements,
`NameError` (use of an undefined name), `TypeError` (e.g. subscripting
`None`), `IndexError` (list index out of range), `AttributeError` (access to
a never-assigned attribute), and the spec's names for aggregation failure on
the point at infinity (`InvalidKey`) and a degenerate aggregate nonce
(`DegenerateNonce`). -/
inductive Err where
  | assertFail
  | nameError
  | typeError
  | indexError
  | attributeError
  | invalidKey
  | degenerateNonce
  deriving DecidableEq, Repr

/-- Big-endian byte serialization of a natural number into a fixed number of
bytes, Python's `int.to_bytes(w, 'big')` (the truncating variant: only the
low `8*w` bits are kept; all values serialized by the code fit). -/
def toBytesBE : Nat → Nat → List Nat
  | 0, _ => []
  | w + 1, v => toBytesBE w (v / 256) ++ [v % 256]

/-- Big-endian byte deserialization, Python's `int.from_bytes(b, 'big')`. -/
def fromBytesBE (bs : List Nat) : Nat :=
  bs.foldl (fun a b => a * 256 + b) 0

/-- Little-endian 4-byte encoding of a 32-bit index, Python's
`struct.pack("<L", i)`. -/
def le32 (i : Nat) : List Nat :=
  [i % 256, i / 256 % 256, i / 65536 % 256, i / 16777216 % 256]

/-! SHA-256 (FIPS 180-4), the model of `hashlib.sha256`. 32-bit words are
naturals kept below `2^32` by explicit masking. -/

/-- Round constants of SHA-256. -/
def sha256K : Array Nat := #[
  1116352408, 1899447441, 3049323471, 3921009573, 961987163, 1508970993,
  2453635748, 2870763221, 3624381080, 310598401, 607225278, 1426881987,
  1925078388, 2162078206, 2614888103, 3248222580, 3835390401, 4022224774,
  264347078, 604807628, 770255983, 1249150122, 1555081692, 1996064986,
  2554220882, 2821834349, 2952996808, 3210313671, 3336571891, 3584528711,
  113926993, 338241895, 666307205, 773529912, 1294757372, 1396182291,
  1695183700, 1986661051, 2177026350, 2456956037, 2730485921, 2820302411,
  3259730800, 3345764771, 3516065817, 3600352804, 4094571909, 275423344,
  430227734, 506948616, 659060556, 883997877, 958139571, 1322822218,
  1537002063, 1747873779, 1955562222, 2024104815, 2227730452, 2361852424,
  2428436474, 2756734187, 3204031479, 3329325298]

/-- Initial hash state of SHA-256. -/
def sha256H0 : Array Nat := #[
  1779033703, 3144134277, 1013904242, 2773480762, 1359893119, 2600822924,
  528734635, 1541459225]

/-- Right rotation of a 32-bit word. -/
def rotr32 (k x : Nat) : Nat :=
  ((x >>> k) ||| (x <<< (32 - k))) &&& 0xFFFFFFFF

/-- Message-schedule sigma-0. -/
def ssig0 (x : Nat) : Nat := rotr32 7 x ^^^ rotr32 18 x ^^^ (x >>> 3)

/-- Message-schedule sigma-1. -/
def ssig1 (x : Nat) : Nat := rotr32 17 x ^^^ rotr32 19 x ^^^ (x >>> 10)

/-- Compression big-sigma-0. -/
def bsig0 (x : Nat) : Nat := rotr32 2 x ^^^ rotr32 13 x ^^^ rotr32 22 x

/-- Compression big-sigma-1. -/
def bsig1 (x : Nat) : Nat := rotr32 6 x ^^^ rotr32 11 x ^^^ rotr32 25 x

/-- SHA-256 padding: append `0x80`, zeros, and the 64-bit big-endian bit
length, reaching a multiple of 64 bytes. -/
def sha256pad (msg : List Nat) : List Nat :=
  msg ++ [0x80] ++ List.replicate ((64 - (msg.length + 9) % 64) % 64) 0
      ++ toBytesBE 8 (msg.length * 8)

/-- Group a byte stream into big-endian 32-bit words. -/
def toWords32 : List Nat → List Nat
  | b0 :: b1 :: b2 :: b3 :: rest =>
      (((b0 * 256 + b1) * 256 + b2) * 256 + b3) :: toWords32 rest
  | _ => []

/-- Extend the 16 words of one block to the 64-word message schedule. -/
def sha256schedule (w : Array Nat) : Array Nat :=
  (List.range 48).foldl
    (fun w i =>
      w.push ((w.getD i 0 + ssig0 (w.getD (i + 1) 0) + w.getD (i + 9) 0 +
               ssig1 (w.getD (i + 14) 0)) % 4294967296))
    w

/-- One round of the SHA-256 compression function. -/
def sha256round (k w : Nat) : Nat × Nat × Nat × Nat × Nat × Nat × Nat × Nat →
    Nat × Nat × Nat × Nat × Nat × Nat × Nat × Nat
  | (a, b, c, d, e, f, g, h) =>
    let t1 := (h + bsig1 e + ((e &&& f) ^^^ ((0xFFFFFFFF ^^^ e) &&& g)) + k + w)
              % 4294967296
    let t2 := (bsig0 a + ((a &&& b) ^^^ (a &&& c) ^^^ (b &&& c))) % 4294967296
    ((t1 + t2) % 4294967296, a, b, c, (d + t1) % 4294967296, e, f, g)

/-- Process one padded 64-byte block, updating the 8-word hash state. -/
def sha256block (h : Array Nat) (block : List Nat) : Array Nat :=
  let w := sha256schedule (Array.mk (toWords32 block))
  let init := (h.getD 0 0, h.getD 1 0, h.getD 2 0, h.getD 3 0,
               h.getD 4 0, h.getD 5 0, h.getD 6 0, h.getD 7 0)
  let fin := (List.range 64).foldl
    (fun st i => sha256round (sha256K.getD i 0) (w.getD i 0) st) init
  match fin with
  | (a, b, c, d, e, f, g, hh) =>
    #[(h.getD 0 0 + a) % 4294967296, (h.getD 1 0 + b) % 4294967296,
      (h.getD 2 0 + c) % 4294967296, (h.getD 3 0 + d) % 4294967296,
      (h.getD 4 0 + e) % 4294967296, (h.getD 5 0 + f) % 4294967296,
      (h.getD 6 0 + g) % 4294967296, (h.getD 7 0 + hh) % 4294967296]

/-- Split a byte stream into 64-byte chunks (fuel-indexed structural
recursion; the fuel is the stream length, which bounds the chunk count). -/
def chunks64Aux : Nat → List Nat → List (List Nat)
  | 0, _ => []
  | _, [] => []
  | fuel + 1, l => l.take 64 :: chunks64Aux fuel (l.drop 64)

/-- Split a byte stream into 64-byte chunks. -/
def chunks64 (l : List Nat) : List (List Nat) := chunks64Aux l.length l

/-- SHA-256 of a byte stream, as a 32-byte digest. -/
def sha256 (msg : List Nat) : List Nat :=
  let h := (chunks64 (sha256pad msg)).foldl sha256block sha256H0
  (h.toList.map (toBytesBE 4)).flatten

example : sha256 [] =
    [227, 176, 196, 66, 152, 252, 28, 20, 154, 251, 244, 200, 153, 111, 185,
     36, 39, 174, 65, 228, 100, 155, 147, 76, 164, 149, 153, 27, 120, 82,
     184, 85] := by decide

example : sha256 [97, 98, 99] =
    [186, 120, 22, 191, 143, 1, 207, 234, 65, 65, 64, 222, 93, 174, 34, 35,
     176, 3, 97, 163, 150, 23, 122, 156, 180, 16, 255, 97, 242, 0, 21, 173]
    := by decide

example : sha256 (List.range 100) =
    [188, 224, 175, 241, 156, 245, 170, 106, 116, 105, 163, 13, 97, 208, 78,
     67, 118, 228, 187, 246, 56, 16, 82, 238, 158, 127, 51, 146, 92, 149, 77,
     82] := by decide

/-! secp256k1, the model of the curve primitives that
`test_framework/key.py` supplies.  That library is not part of the sources
under verification; the spec (§6) lists the operations it must provide. -/

/-- Field prime of secp256k1. -/
def secp_p : Nat := 115792089237316195423570985008687907853269984665640564039457584007908834671663

/-- Group order of secp256k1, `SECP256K1_ORDER`. -/
def secp_n : Nat := 115792089237316195423570985008687907852837564279074904382605163141518161494337

/-- x-coordinate of the generator. -/
def secp_gx : Nat := 55066263022277343669578718895168534326250603453777594175500187360389116729240

/-- y-coordinate of the generator. -/
def secp_gy : Nat := 32670510020758816978083085130507043184471273380659243275938904335757337482424

/-- Affine point, coordinates in `[0, p)`. -/
abbrev Pt := Nat × Nat

/-- Curve point: an affine point or the point at infinity (`none`). -/
abbrev Point := Option Pt

/-- Fuel-indexed square-and-multiply modular exponentiation; the fuel bounds
the bit length of the exponent (300 covers every exponent used). -/
def powModAux : Nat → Nat → Nat → Nat → Nat
  | 0, _, _, m => 1 % m
  | fuel + 1, b, e, m =>
    if e = 0 then 1 % m
    else
      let r := powModAux fuel ((b * b) % m) (e / 2) m
      if e % 2 = 1 then (b % m) * r % m else r

/-- Modular exponentiation. -/
def powMod (b e m : Nat) : Nat := powModAux 300 b e m

/-- Modelled from the spec: field inversion (Fermat), part of the modular
arithmetic assumed from the vetted curve library. -/
def invMod (x : Nat) : Nat := powMod x (secp_p - 2) secp_p

/-- Reduce the coordinates of a point modulo the field prime; affine points
handled by the curve library always carry reduced coordinates. -/
def pointNormalize : Point → Point
  | none => none
  | some (x, y) => some (x % secp_p, y % secp_p)

/-- Modelled from the spec: point negation (`SECP256K1.negate`). -/
def pointNeg : Point → Point
  | none => none
  | some (x, y) => some (x % secp_p, (secp_p - y % secp_p) % secp_p)

/-- Modelled from the spec: point doubling on `y² = x³ + 7`. -/
def pointDouble : Point → Point
  | none => none
  | some (x, y) =>
    if y % secp_p = 0 then none
    else
      let l := 3 * (x % secp_p) * (x % secp_p) % secp_p * invMod (2 * y % secp_p) % secp_p
      let xr := (l * l + 2 * (secp_p - x % secp_p)) % secp_p
      let yr := (l * ((x % secp_p) + (secp_p - xr)) + (secp_p - y % secp_p)) % secp_p
      some (xr, yr)

/-- Modelled from the spec: affine point addition (`SECP256K1` group law;
chord rule, with the tangent rule for equal x and the vertical case giving
the point at infinity). -/
def pointAdd : Point → Point → Point
  | none, q => pointNormalize q
  | some q, none => pointNormalize (some q)
  | some (x1, y1), some (x2, y2) =>
    if x1 % secp_p = x2 % secp_p then
      if (y1 + y2) % secp_p = 0 then none
      else pointDouble (some (x1, y1))
    else
      let dx := ((x2 % secp_p) + (secp_p - x1 % secp_p)) % secp_p
      let dy := ((y2 % secp_p) + (secp_p - y1 % secp_p)) % secp_p
      let l := dy * invMod dx % secp_p
      let xr := (l * l + (secp_p - x1 % secp_p) + (secp_p - x2 % secp_p)) % secp_p
      let yr := (l * ((x1 % secp_p) + (secp_p - xr)) + (secp_p - y1 % secp_p)) % secp_p
      some (xr, yr)

/-- Double-and-add scalar multiplication, least-significant bit first; the
fuel bounds the scalar's bit length (300 covers every scalar used). -/
def pointMulNatAux : Nat → Nat → Point → Point → Point
  | 0, _, _, acc => acc
  | fuel + 1, k, pb, acc =>
    if k = 0 then acc
    else pointMulNatAux fuel (k / 2) (pointDouble pb)
         (if k % 2 = 1 then pointAdd acc pb else acc)

/-- Modelled from the spec: scalar multiplication `k · P` for a natural
scalar. -/
def pointMulNat (k : Nat) (P : Point) : Point := pointMulNatAux 300 k P none

/-- Modelled from the spec: scalar multiplication for a signed scalar; a
negative scalar multiplies by the absolute value and negates the point
(`(-1) · P = -P` in the group). -/
def pointMulInt (k : Int) (P : Point) : Point :=
  if k < 0 then pointNeg (pointMulNat k.natAbs P) else pointMulNat k.natAbs P

/-- Modelled from the spec: multi-scalar multiplication `SECP256K1.mul`,
computing `Σ kᵢ · Pᵢ` over a list of (point, scalar) pairs. -/
def secpMul (ps : List (Point × Int)) : Point :=
  ps.foldl (fun acc pk => pointAdd acc (pointMulInt pk.2 pk.1)) none

/-- Curve membership test for an affine point (`SECP256K1.on_curve` with
reduced coordinates). -/
def onCurvePt (q : Pt) : Bool :=
  q.1 < secp_p && q.2 < secp_p &&
  (q.2 * q.2) % secp_p == (q.1 * q.1 % secp_p * q.1 + 7) % secp_p

/-- Curve membership test; the point at infinity fails it, which is how the
code detects a degenerate aggregate (the `assert pt_r.valid` after the nonce
combination). -/
def onCurvePoint : Point → Bool
  | none => false
  | some q => onCurvePt q

/-- Even-y test for an affine point (`SECP256K1.has_even_y`). -/
def hasEvenYPt (q : Pt) : Bool := q.2 % 2 == 0

/-- Modelled from the spec: x-only lift with even y (`SECP256K1.lift_x`,
BIP340 convention): the on-curve point with the given x-coordinate and even
y, or `none` when x is not a valid coordinate. -/
def liftX (x : Nat) : Point :=
  if secp_p ≤ x then none
  else
    let c := (x * x % secp_p * x + 7) % secp_p
    let y := powMod c ((secp_p + 1) / 4) secp_p
    if y * y % secp_p = c then some (x, if y % 2 = 0 then y else secp_p - y)
    else none

/-- Compressed 33-byte serialization of an affine point
(`ECPubKey.get_bytes` for a compressed key): sign byte 0x02 for even y,
0x03 for odd y, then the big-endian x-coordinate. -/
def compress33 (q : Pt) : List Nat :=
  (if q.2 % 2 = 0 then 2 else 3) :: toBytesBE 32 q.1

/-- The generator as an affine point. -/
def gPt : Pt := (secp_gx, secp_gy)

/-- ASCII bytes of the BIP340 challenge tag `BIP0340/challenge`. -/
def challengeTag : List Nat :=
  [66, 73, 80, 48, 51, 52, 48, 47, 99, 104, 97, 108, 108, 101, 110, 103, 101]

/-- Modelled from the spec: BIP340-style tagged hash (`TaggedHash` from the
key library): SHA256 of the tag's digest twice, then the data. -/
def taggedHash (tag data : List Nat) : List Nat :=
  sha256 (sha256 tag ++ sha256 tag ++ data)

/-! The MuSig key-aggregation and MuSig2 session code of
`test_framework/musig.py`. -/

/-- Signer key as consumed by `MuSig.__init__`: the public point
(`k.neuter().key.p`, always available) and, for a signer that can sign, the
private scalar (`k.key.secret`). -/
structure SignerKey where
  pt : Pt
  secret : Option Nat
  deriving DecidableEq, Repr

/-- Per-signer contribution key (`MuSig.pts[i]`): a scalar for a signer
holding a private key, a point for a verify-only signer. -/
inductive Contribution where
  | sk (x : Nat)
  | pk (p : Point)
  deriving DecidableEq, Repr

/-- Concatenation of all signers' 33-byte compressed public keys: the byte
stream absorbed by `basehash` in `MuSig.__init__` (line 160). -/
def keyagg_base (keys : List SignerKey) : List Nat :=
  (keys.map (fun k => compress33 k.pt)).flatten

/-- The MuSig multiplier list of `MuSig.__init__` (lines 160-165).
`basehash.copy()` duplicates the hasher holding the absorbed key
concatenation and `h.update(struct.pack("<L", i))` appends the index bytes
to that stream, so `mul[i] = SHA256(keyconcat ‖ LE32(i)) mod n`. -/
def musig_mul_list (keys : List SignerKey) : List Nat :=
  (List.range keys.length).map
    (fun i => fromBytesBE (sha256 (keyagg_base keys ++ le32 i)) % secp_n)

/-- Per-signer contribution keys (`MuSig.__init__` lines 185-192), built
from the final (possibly negated) multipliers: `(secret * m) mod n` for a
private signer, `m · P` for a verify-only one. -/
def musig_pts (keys : List SignerKey) (mul : List Nat) : List Contribution :=
  (keys.zip mul).map (fun km =>
    match km.1.secret with
    | some x => .sk ((x * km.2) % secp_n)
    | none => .pk (secpMul [(some km.1.pt, (km.2 : Int))]))

/-- The `MuSig` object: key list, derivation tweaks, multipliers, the
negation flag, the even-y aggregate public key, and the contribution
keys. -/
structure MuSig where
  keys : List SignerKey
  tweak : List Nat
  mul : List Nat
  negated : Bool
  pubkey : Pt
  pts : List Contribution
  deriving DecidableEq, Repr

/-- Negation of an affine point. -/
def pointNegPt (q : Pt) : Pt := (q.1 % secp_p, (secp_p - q.2 % secp_p) % secp_p)

/-- `MuSig.__init__(keys, tweak)` (lines 153-192).  The weighted key sum is
computed by the curve library's multi-scalar multiplication; per the spec,
aggregation fails with `InvalidKey` when the sum is the point at infinity.
When the sum has odd y, the point is negated and every multiplier replaced
by `n - multiplier`, recording `negated = True`. -/
def mkMuSig (keys : List SignerKey) (tweak : List Nat) : Except Err MuSig :=
  let mul := musig_mul_list keys
  match secpMul ((keys.zip mul).map (fun km => (some km.1.pt, (km.2 : Int)))) with
  | none => .error .invalidKey
  | some p =>
    if hasEvenYPt p then
      .ok ⟨keys, tweak, mul, false, p, musig_pts keys mul⟩
    else
      let mul2 := mul.map (fun m => secp_n - m)
      .ok ⟨keys, tweak, mul2, true, pointNegPt p, musig_pts keys mul2⟩

/-- Core of `partial_schnorr_sign` after the range checks: the lift-x
validity checks on the 32-byte public key and nonce, the BIP340 challenge,
and the scalar equation `(nonce + e · key) mod n` as 32 big-endian bytes. -/
def pschnorr_core (pubnonce pubkey msg : List Nat) (pkey pnonce : Int) :
    Option (List Nat) :=
  if liftX (fromBytesBE pubkey) = none then none
  else if liftX (fromBytesBE pubnonce) = none then none
  else
    let e := fromBytesBE (taggedHash challengeTag (pubnonce ++ pubkey ++ msg)) % secp_n
    some (toBytesBE 32 (((pnonce + (e : Int) * pkey) % (secp_n : Int)).toNat))

/-- The helper `partial_schnorr_sign` of `musig.py` (lines 106-127; renamed,
`partial` being reserved in Lean).  The length asserts raise; a private
scalar that is non-positive or at least the group order is rejected by
returning `None`, and likewise an explicitly supplied partial nonce; a
`none` nonce argument (Python `None`) selects the zero nonce used for the
taproot tweak contribution. -/
def pschnorr_sign (pubnonce pubkey msg : List Nat) (pkey : Int)
    (pnonce : Option Int) : Except Err (Option (List Nat)) :=
  if pubnonce.length ≠ 32 ∨ pubkey.length ≠ 32 ∨ msg.length ≠ 32 then
    .error .assertFail
  else if pkey ≤ 0 ∨ (secp_n : Int) ≤ pkey then .ok none
  else
    match pnonce with
    | some v =>
      if v ≤ 0 ∨ (secp_n : Int) ≤ v then .ok none
      else .ok (pschnorr_core pubnonce pubkey msg pkey v)
    | none => .ok (pschnorr_core pubnonce pubkey msg pkey 0)

/-- The `MuSig2` session dataclass (lines 213-225): message, optional
output-key tweak `(negation flag, scalar)`, per-signer secret nonce pairs,
per-signer public nonce pairs, the binding coefficient `b`, the serialized
aggregate nonce `r` (33 compressed bytes once computed), the per-signer
partial signatures, and the final signature. -/
structure MuSig2 where
  musig : MuSig
  msg : Option (List Nat)
  pubkeytweak : Option (Bool × Nat)
  secretpairs : List (Option (List Nat × List Nat))
  noncepairs : List (Option (Pt × Pt))
  b : Option Nat
  r : Option (List Nat)
  h : Option (List Nat)
  psigs : List (Option (List Nat))
  extra : Option (List Nat)
  sig : Option (List Nat)
  deriving DecidableEq, Repr

/-- The `MuSig2` dataclass constructor followed by `__post_init__`
(lines 227-231): each per-signer list is padded with `None` up to the number
of signers (padding by `[None] * (n - len(list))`, which adds nothing when
the list already has at least `n` entries). -/
def mkMuSig2 (musig : MuSig) (msg : Option (List Nat))
    (pubkeytweak : Option (Bool × Nat))
    (secretpairs : List (Option (List Nat × List Nat)))
    (noncepairs : List (Option (Pt × Pt))) (b : Option Nat)
    (r : Option (List Nat)) (h : Option (List Nat))
    (psigs : List (Option (List Nat))) (extra : Option (List Nat))
    (sig : Option (List Nat)) : MuSig2 :=
  let n := musig.keys.length
  ⟨musig, msg, pubkeytweak,
   secretpairs ++ List.replicate (n - secretpairs.length) none,
   noncepairs ++ List.replicate (n - noncepairs.length) none,
   b, r, h,
   psigs ++ List.replicate (n - psigs.length) none,
   extra, sig⟩

/-- `MuSig2.set_nonce` (lines 238-242): store the nonce pair and reset `b`,
every partial-signature slot and the final signature (the stored `r` is not
touched).  Python raises `IndexError` when the index is out of range. -/
def MuSig2.set_nonce (s : MuSig2) (i : Nat) (r1g r2g : Pt) :
    Except Err MuSig2 :=
  if i < s.noncepairs.length then
    .ok { s with noncepairs := s.noncepairs.set i (some (r1g, r2g)),
                 b := none,
                 psigs := List.replicate s.musig.keys.length none,
                 sig := none }
  else .error .indexError

/-- `MuSig2.set_msg` (lines 244-246): store the message and reset every
partial-signature slot and the final signature (`b` and `r` are not
touched). -/
def MuSig2.set_msg (s : MuSig2) (m : List Nat) : MuSig2 :=
  { s with msg := some m,
           psigs := List.replicate s.musig.keys.length none,
           sig := none }

/-- Modelled from the spec: the key library's `ECKey.set` / `get_pubkey`
pipeline used by `set_secret` — a 32-byte secret in `[1, n-1]` yields the
public point `secret · G`; anything else leaves the key invalid and makes
`get_pubkey`'s assertion fail. -/
def makeECKeyPub (secret : List Nat) : Except Err Pt :=
  if secret.length = 32 ∧ 0 < fromBytesBE secret ∧ fromBytesBE secret < secp_n
  then
    match secpMul [(some gPt, (fromBytesBE secret : Int))] with
    | some q => .ok q
    | none => .error .invalidKey
  else .error .assertFail

/-- `MuSig2.set_secret` (lines 233-236): bounds-check the index, store the
secret pair, then derive the two public nonces and store them through
`set_nonce`. -/
def MuSig2.set_secret (s : MuSig2) (i : Nat) (r1 r2 : List Nat) :
    Except Err MuSig2 :=
  if i < s.musig.keys.length then
    if i < s.secretpairs.length then
      let s1 := { s with secretpairs := s.secretpairs.set i (some (r1, r2)) }
      match makeECKeyPub r1, makeECKeyPub r2 with
      | .ok p1, .ok p2 => s1.set_nonce i p1 p2
      | .error e, _ => .error e
      | _, .error e => .error e
    else .error .indexError
  else .error .assertFail

/-- `MuSig2.calc_b_r` (lines 249-271): require every nonce pair and a
32-byte message; hash the compressed aggregate key, every signer's two
compressed nonces in list order, and the message, reducing mod n to get
`b`; combine the nonces with the curve library's multi-scalar multiply as
`Σ 1·R1ᵢ + Σ b·R2ᵢ`; the resulting point must pass the validity check
(`assert pt_r.valid`), which the point at infinity fails — per the spec this
is the `DegenerateNonce` condition — and its 33-byte compressed form is
stored in `r`. -/
def MuSig2.calc_b_r (s : MuSig2) : Except Err MuSig2 :=
  if ¬ s.noncepairs.all (·.isSome) then .error .assertFail
  else
    match s.msg with
    | none => .error .assertFail
    | some m =>
      if m.length ≠ 32 then .error .assertFail
      else
        let pk := compress33 s.musig.pubkey
        if pk.length ≠ 33 then .error .assertFail
        else
          let transcript := pk ++
            (s.noncepairs.foldl (fun acc q =>
              acc ++ (match q with
                      | some pq => compress33 pq.1 ++ compress33 pq.2
                      | none => [])) []) ++ m
          let bv := fromBytesBE (sha256 transcript) % secp_n
          let rPt := secpMul
            ((s.noncepairs.map (fun q => (q.map (fun pq => pq.1), (1 : Int))))
             ++
             (s.noncepairs.map (fun q => (q.map (fun pq => pq.2), (bv : Int)))))
          match rPt with
          | some q =>
            if onCurvePt q then .ok { s with b := some bv, r := some (compress33 q) }
            else .error .degenerateNonce
          | none => .error .degenerateNonce

/-- `MuSig2.calc_pubkey` (lines 273-283): the compressed aggregate key, or,
when a tweak `(neg, t)` is set, the sign `(-1)^neg` applied to both the
lifted aggregate point and (mod n) to the tweak scalar before the
combination `sign·P + ((n + sign·t) mod n)·G`, serialized as 0x02 followed
by the x-coordinate.  Lift or combination failures surface as Python
`TypeError` (operating on `None`). -/
def MuSig2.calc_pubkey (s : MuSig2) : Except Err (List Nat) :=
  let pb := compress33 s.musig.pubkey
  if ¬ (pb.headD 0 = 2 ∧ pb.length = 33) then .error .assertFail
  else
    match s.pubkeytweak with
    | none => .ok pb
    | some (negf, t) =>
      let sgn : Int := if negf then -1 else 1
      match liftX (fromBytesBE (pb.drop 1)) with
      | none => .error .typeError
      | some pt =>
        let ts := ((secp_n : Int) + sgn * (t : Int)) % (secp_n : Int)
        match secpMul [(some pt, sgn), (some gPt, ts)] with
        | none => .error .typeError
        | some q => .ok (2 :: toBytesBE 32 q.1)

/-- `MuSig2.calc_sig` (lines 285-297): require every partial signature; sum
them mod n; when a tweak `(neg, t)` is set, add the tweak contribution
`partial_schnorr_sign(r_x, p_x, msg, t, None)` (zero nonce) exactly once and
negate the sum mod n when `neg` is set; the final signature is the 32-byte
x of `r` followed by the 32-byte sum. -/
def MuSig2.calc_sig (s : MuSig2) : Except Err (List Nat) :=
  if ¬ s.psigs.all (·.isSome) then .error .assertFail
  else
    let ssum := (s.psigs.foldl
      (fun a q => a + (match q with | some bs => fromBytesBE bs | none => 0))
      0) % secp_n
    match s.pubkeytweak with
    | none =>
      match s.r with
      | none => .error .typeError
      | some rb => .ok (rb.drop 1 ++ toBytesBE 32 ssum)
    | some (negf, t) =>
      match s.r, s.msg with
      | some rb, some m =>
        match s.calc_pubkey with
        | .error e => .error e
        | .ok pb =>
          match pschnorr_sign (rb.drop 1) (pb.drop 1) m (t : Int) none with
          | .error e => .error e
          | .ok none => .error .typeError
          | .ok (some es) =>
            let s1 := (ssum + fromBytesBE es) % secp_n
            let s2 := if negf then secp_n - s1 else s1
            .ok (rb.drop 1 ++ toBytesBE 32 s2)
      | _, _ => .error .typeError

/-- `MuSig2.calc_partial` (lines 299-316; renamed, `partial` being reserved
in Lean).  After the asserts and the combined secret nonce
`my_r = (r1 + b·r2) mod n`, the sign-correction branch taken when the
stored aggregate nonce has sign byte 0x03 executes `SECP256K1_ORER - my_r`:
the name `SECP256K1_ORER` is never defined anywhere (the order constant is
spelled `SECP256K1_ORDER`), so that branch raises `NameError`.  The even
branch proceeds to `partial_schnorr_sign` with the signer's contribution
key and `my_r`, storing the result (possibly `None`) in the partial slot. -/
def MuSig2.calc_psig (s : MuSig2) (i : Nat) : Except Err MuSig2 :=
  match s.musig.pts.get? i with
  | none => .error .indexError
  | some (.pk _) => .error .assertFail
  | some (.sk key) =>
    match s.secretpairs.get? i with
    | none => .error .indexError
    | some none => .error .assertFail
    | some (some (r1b, r2b)) =>
      match s.b, s.r with
      | some bv, some rb =>
        let r1 := fromBytesBE r1b
        let r2 := fromBytesBE r2b
        let my_r := (r1 + bv * r2) % secp_n
        if rb.length ≠ 33 then .error .assertFail
        else if rb.headD 0 = 3 then .error .nameError
        else
          match s.calc_pubkey with
          | .error e => .error e
          | .ok pb =>
            match s.msg with
            | none => .error .typeError
            | some m =>
              match pschnorr_sign (rb.drop 1) (pb.drop 1) m (key : Int)
                      (some (my_r : Int)) with
              | .error e => .error e
              | .ok res => .ok { s with psigs := s.psigs.set i res }
      | _, _ => .error .assertFail

/-- `MuSig2.set_partial` (lines 318-320; renamed): require `b` and `r` to be
known, then store the supplied partial signature in slot `i`. -/
def MuSig2.set_psig (s : MuSig2) (i : Nat) (psig : List Nat) :
    Except Err MuSig2 :=
  if s.b.isSome ∧ s.r.isSome then
    if i < s.psigs.length then
      .ok { s with psigs := s.psigs.set i (some psig) }
    else .error .indexError
  else .error .assertFail

/-! The revocable-secret hash ladder of `feature_ln_ptlc.py`. -/

/-- The `RevocableSecret` object: a 32-byte seed and a ceiling. -/
structure RevocableSecret where
  seed : List Nat
  ceiling : Nat
  deriving DecidableEq, Repr

/-- `RevocableSecret.__init__` (feature_ln_ptlc.py lines 169-176): the
ceiling defaults to 10000 and must be at most 10000; the seed must be 32
bytes. -/
def mkRevocableSecret (seed : List Nat) (ceiling : Option Nat) :
    Except Err RevocableSecret :=
  let c := ceiling.getD 10000
  if c ≤ 10000 ∧ seed.length = 32 then .ok ⟨seed, c⟩ else .error .assertFail

/-- `RevocableSecret.get` (feature_ln_ptlc.py lines 177-182).  After the
`assert level < self.ceiling`, the hashing loop's bound reads
`self.level`, an attribute that is never assigned anywhere in the class
(`__init__` stores only `seed` and `ceiling`; the loop bound was evidently
meant to be the `level` parameter), so every call raises `AttributeError`
before any hashing happens. -/
def RevocableSecret.get (s : RevocableSecret) (level : Nat) :
    Except Err (List Nat) :=
  if level < s.ceiling then .error .attributeError
  else .error .assertFail

/-! Helper lemmas. -/

theorem toBytesBE_length : ∀ (w v : Nat), (toBytesBE w v).length = w
  | 0, _ => rfl
  | w + 1, v => by simp [toBytesBE, toBytesBE_length w]

theorem compress33_length (q : Pt) : (compress33 q).length = 33 := by
  simp [compress33, toBytesBE_length]

/-- Coordinates of a finite point are reduced modulo the field prime. -/
def PointRed : Point → Prop
  | none => True
  | some q => q.1 < secp_p ∧ q.2 < secp_p

theorem secp_p_pos : 0 < secp_p := by decide

theorem pointNormalize_red (P : Point) : PointRed (pointNormalize P) := by
  cases P with
  | none => trivial
  | some q =>
    obtain ⟨x, y⟩ := q
    exact ⟨Nat.mod_lt _ secp_p_pos, Nat.mod_lt _ secp_p_pos⟩

theorem pointDouble_red (P : Point) : PointRed (pointDouble P) := by
  cases P with
  | none => trivial
  | some q =>
    obtain ⟨x, y⟩ := q
    simp only [pointDouble]
    split
    · trivial
    · exact ⟨Nat.mod_lt _ secp_p_pos, Nat.mod_lt _ secp_p_pos⟩

theorem pointAdd_red (P Q : Point) : PointRed (pointAdd P Q) := by
  cases P with
  | none => exact pointNormalize_red Q
  | some p1 =>
    cases Q with
    | none => exact pointNormalize_red (some p1)
    | some p2 =>
      obtain ⟨x1, y1⟩ := p1
      obtain ⟨x2, y2⟩ := p2
      simp only [pointAdd]
      split
      · split
        · trivial
        · exact pointDouble_red (some (x1, y1))
      · exact ⟨Nat.mod_lt _ secp_p_pos, Nat.mod_lt _ secp_p_pos⟩

theorem pointNeg_red (P : Point) : PointRed (pointNeg P) := by
  cases P with
  | none => trivial
  | some q =>
    obtain ⟨x, y⟩ := q
    exact ⟨Nat.mod_lt _ secp_p_pos, Nat.mod_lt _ secp_p_pos⟩

theorem pointMulNatAux_red (fuel : Nat) :
    ∀ (k : Nat) (pb acc : Point), PointRed acc →
      PointRed (pointMulNatAux fuel k pb acc) := by
  induction fuel with
  | zero => intro k pb acc h; exact h
  | succ f ih =>
    intro k pb acc h
    simp only [pointMulNatAux]
    split
    · exact h
    · apply ih
      split
      · exact pointAdd_red acc pb
      · exact h

theorem pointMulNat_red (k : Nat) (P : Point) : PointRed (pointMulNat k P) :=
  pointMulNatAux_red 300 k P none trivial

theorem pointMulInt_red (k : Int) (P : Point) : PointRed (pointMulInt k P) := by
  unfold pointMulInt
  split
  · have h := pointMulNat_red k.natAbs P
    cases hq : pointMulNat k.natAbs P with
    | none => exact trivial
    | some q =>
      rw [hq] at h
      obtain ⟨x, y⟩ := q
      exact ⟨Nat.mod_lt _ secp_p_pos, Nat.mod_lt _ secp_p_pos⟩
  · exact pointMulNat_red k.natAbs P

theorem secpMulFold_red (ps : List (Point × Int)) :
    ∀ acc : Point, PointRed acc →
      PointRed (ps.foldl (fun a pk => pointAdd a (pointMulInt pk.2 pk.1)) acc) := by
  induction ps with
  | nil => intro acc h; exact h
  | cons hd tl ih =>
    intro acc _
    exact ih _ (pointAdd_red acc (pointMulInt hd.2 hd.1))

theorem secpMul_red (ps : List (Point × Int)) : PointRed (secpMul ps) :=
  secpMulFold_red ps none trivial

theorem secpMul_some_red (ps : List (Point × Int)) (q : Pt)
    (h : secpMul ps = some q) : q.1 < secp_p ∧ q.2 < secp_p := by
  have hr := secpMul_red ps
  rw [h] at hr
  exact hr

theorem pointNegPt_even (q : Pt) (h2 : q.2 < secp_p)
    (hodd : q.2 % 2 = 1) : (pointNegPt q).2 % 2 = 0 := by
  unfold pointNegPt
  have hpo : secp_p % 2 = 1 := by decide
  have hy0 : 0 < q.2 := by omega
  rw [Nat.mod_eq_of_lt h2, Nat.mod_eq_of_lt (show secp_p - q.2 < secp_p by omega)]
  omega

instance {ε α : Type _} [DecidableEq ε] [DecidableEq α] :
    DecidableEq (Except ε α) := fun x y =>
  match x, y with
  | .ok a, .ok b =>
    match decEq a b with
    | isTrue h => isTrue (h ▸ rfl)
    | isFalse h => isFalse (fun hc => h (Except.ok.inj hc))
  | .error a, .error b =>
    match decEq a b with
    | isTrue h => isTrue (h ▸ rfl)
    | isFalse h => isFalse (fun hc => h (Except.error.inj hc))
  | .ok _, .error _ => isFalse (fun hc => Except.noConfusion hc)
  | .error _, .ok _ => isFalse (fun hc => Except.noConfusion hc)

/-! Shared concrete inputs used to exercise the theorems. -/

/-- A 32-byte all-zero message. -/
def msg0 : List Nat := List.replicate 32 0

/-- A signer key holding the generator with private scalar 1. -/
def keyW : SignerKey := ⟨gPt, some 1⟩

/-- A one-signer MuSig value over `keyW`. -/
def musigW : MuSig := ⟨[keyW], [], [1], false, gPt, [.sk 1]⟩

/-- A MuSig2 session whose stored aggregate nonce has odd-y sign byte 0x03;
its first signer holds contribution key 5 and secret nonces 7 and 9, and
`b` has been fixed to 3. -/
def sessOdd : MuSig2 :=
  ⟨⟨[keyW], [], [1], false, gPt, [.sk 5]⟩, some msg0, none,
   [some (toBytesBE 32 7, toBytesBE 32 9)], [some (gPt, gPt)], some 3,
   some (3 :: List.replicate 32 0), none, [none], none, none⟩

/-- C9: the claimed hash-ladder relation cannot hold of the code because
`get` never returns: on the session-constructible instance
`RevocableSecret(b'\x00'*32, 100)`, `get 50` raises `AttributeError`
(the loop bound reads the undefined `self.level`) instead of producing the
seed hashed `100 - 50` times. -/
theorem revocable_get_raises :
    mkRevocableSecret (List.replicate 32 0) (some 100) =
      .ok ⟨List.replicate 32 0, 100⟩ ∧
    RevocableSecret.get ⟨List.replicate 32 0, 100⟩ 50 =
      .error .attributeError := by decide

/-- C3: on a session whose aggregate nonce serialization starts with the
odd-y sign byte 0x03, `calc_partial` raises `NameError` (the negation
branch uses the undefined name `SECP256K1_ORER`) instead of producing the
sign-corrected partial signature the claim describes. -/
theorem calc_psig_odd_r_name_error :
    MuSig2.calc_psig sessOdd 0 = .error .nameError := by decide

/-- A MuSig2 session with every derived value populated, used to observe
which of them the setters actually clear. -/
def sessC5 : MuSig2 :=
  ⟨musigW, some msg0, none, [none], [some (gPt, gPt)], some 5,
   some (2 :: List.replicate 32 0), none, [some (toBytesBE 32 1)], none,
   some (List.replicate 64 0)⟩

/-- The state produced by `sessC5.set_nonce 0 gPt gPt`. -/
def sessC5n : MuSig2 :=
  ⟨musigW, some msg0, none, [none], [some (gPt, gPt)], none,
   some (2 :: List.replicate 32 0), none, [none], none, none⟩

/-- C5 is false as stated: after `set_nonce` the stored aggregate nonce `r`
is still known (not reset to `None`), and after `set_msg` both `b` and `r`
are still known. -/
theorem set_nonce_set_msg_claim_cex :
    (MuSig2.set_nonce sessC5 0 gPt gPt).map (fun t => t.r) ≠ .ok none ∧
    (MuSig2.set_msg sessC5 (List.replicate 32 1)).b ≠ none ∧
    (MuSig2.set_msg sessC5 (List.replicate 32 1)).r ≠ none := by decide

/-- C5 (amended): `set_nonce` stores the pair and resets `b`, every
partial-signature slot and the final signature, leaving the stored
aggregate nonce `r` (and the message) untouched; `set_msg` stores the
message and resets every partial-signature slot and the final signature,
leaving both `b` and `r` untouched. -/
theorem set_nonce_set_msg_invalidate (s : MuSig2) (i : Nat) (p1 p2 : Pt)
    (m : List Nat) (s' : MuSig2)
    (h : MuSig2.set_nonce s i p1 p2 = .ok s') :
    s'.b = none ∧ s'.psigs = List.replicate s.musig.keys.length none ∧
    s'.sig = none ∧ s'.r = s.r ∧ s'.msg = s.msg ∧
    s'.noncepairs = s.noncepairs.set i (some (p1, p2)) ∧
    (MuSig2.set_msg s m).psigs = List.replicate s.musig.keys.length none ∧
    (MuSig2.set_msg s m).sig = none ∧
    (MuSig2.set_msg s m).b = s.b ∧
    (MuSig2.set_msg s m).r = s.r ∧
    (MuSig2.set_msg s m).msg = some m := by
  unfold MuSig2.set_nonce at h
  split at h
  · injection h with h2
    subst h2
    exact ⟨rfl, rfl, rfl, rfl, rfl, rfl, rfl, rfl, rfl, rfl, rfl⟩
  · exact absurd h (by simp)

theorem set_nonce_set_msg_invalidate_witness :
    sessC5n.b = none ∧
    sessC5n.psigs = List.replicate sessC5.musig.keys.length none ∧
    sessC5n.sig = none ∧ sessC5n.r = sessC5.r ∧ sessC5n.msg = sessC5.msg ∧
    sessC5n.noncepairs = sessC5.noncepairs.set 0 (some (gPt, gPt)) ∧
    (MuSig2.set_msg sessC5 (List.replicate 32 1)).psigs =
      List.replicate sessC5.musig.keys.length none ∧
    (MuSig2.set_msg sessC5 (List.replicate 32 1)).sig = none ∧
    (MuSig2.set_msg sessC5 (List.replicate 32 1)).b = sessC5.b ∧
    (MuSig2.set_msg sessC5 (List.replicate 32 1)).r = sessC5.r ∧
    (MuSig2.set_msg sessC5 (List.replicate 32 1)).msg =
      some (List.replicate 32 1) :=
  set_nonce_set_msg_invalidate sessC5 0 gPt gPt (List.replicate 32 1) sessC5n
    (by decide)

/-- C8: `partial_schnorr_sign` rejects a supplied private scalar that is
zero, negative, or at least the group order — no partial signature is
produced (`None` is returned, nothing is reduced mod n) — and it rejects an
explicitly supplied partial nonce on exactly the same range condition. -/
theorem pschnorr_sign_rejects_out_of_range (pubnonce pubkey msg : List Nat)
    (pkey : Int) (pnonce : Option Int)
    (hlen : pubnonce.length = 32 ∧ pubkey.length = 32 ∧ msg.length = 32) :
    ((pkey ≤ 0 ∨ (secp_n : Int) ≤ pkey) →
        pschnorr_sign pubnonce pubkey msg pkey pnonce = .ok none) ∧
    (∀ v, pnonce = some v → (v ≤ 0 ∨ (secp_n : Int) ≤ v) →
        pschnorr_sign pubnonce pubkey msg pkey pnonce = .ok none) := by
  obtain ⟨h1, h2, h3⟩ := hlen
  constructor
  · intro hk
    unfold pschnorr_sign
    rw [if_neg (by simp [h1, h2, h3]), if_pos hk]
  · intro v hv hr
    subst hv
    unfold pschnorr_sign
    rw [if_neg (by simp [h1, h2, h3])]
    by_cases hk : pkey ≤ 0 ∨ (secp_n : Int) ≤ pkey
    · rw [if_pos hk]
    · rw [if_neg hk]
      simp only []
      rw [if_pos hr]

theorem pschnorr_sign_rejects_witness :
    (List.replicate 32 0).length = 32 ∧
    pschnorr_sign (List.replicate 32 0) (List.replicate 32 0)
      (List.replicate 32 0) 0 (some 0) = .ok none ∧
    pschnorr_sign (List.replicate 32 0) (List.replicate 32 0)
      (List.replicate 32 0) 1 (some 0) = .ok none :=
  ⟨by decide,
   (pschnorr_sign_rejects_out_of_range (List.replicate 32 0)
      (List.replicate 32 0) (List.replicate 32 0) 0 (some 0)
      ⟨by decide, by decide, by decide⟩).1 (Or.inl (by decide)),
   (pschnorr_sign_rejects_out_of_range (List.replicate 32 0)
      (List.replicate 32 0) (List.replicate 32 0) 1 (some 0)
      ⟨by decide, by decide, by decide⟩).2 0 rfl (Or.inl (by decide))⟩

/-- The three per-signer lists of a session all have one slot per signer. -/
def sessionListsLen (s : MuSig2) : Prop :=
  s.secretpairs.length = s.musig.keys.length ∧
  s.noncepairs.length = s.musig.keys.length ∧
  s.psigs.length = s.musig.keys.length

theorem len_set_nonce (s : MuSig2) (i : Nat) (p1 p2 : Pt) (s' : MuSig2)
    (hl : sessionListsLen s) (h : MuSig2.set_nonce s i p1 p2 = .ok s') :
    sessionListsLen s' := by
  obtain ⟨hl1, hl2, hl3⟩ := hl
  unfold MuSig2.set_nonce at h
  split at h
  · injection h with h2
    subst h2
    exact ⟨hl1, by simpa using hl2, by simp⟩
  · exact absurd h (by simp)

/-- C10: a session over N signer keys has exactly N secret-pair, nonce-pair
and partial-signature slots right after construction (for any construction
whose explicitly supplied lists do not exceed N entries, in particular the
default empty ones), and `set_secret`, `set_nonce`, `set_msg` and
`set_partial` all preserve those lengths. -/
theorem musig2_list_lengths :
    (∀ (mg : MuSig) (ms : Option (List Nat)) (tw : Option (Bool × Nat))
        (sp : List (Option (List Nat × List Nat)))
        (np : List (Option (Pt × Pt))) (b : Option Nat)
        (r h : Option (List Nat)) (ps : List (Option (List Nat)))
        (ex sg : Option (List Nat)),
        sp.length ≤ mg.keys.length → np.length ≤ mg.keys.length →
        ps.length ≤ mg.keys.length →
        sessionListsLen (mkMuSig2 mg ms tw sp np b r h ps ex sg)) ∧
    (∀ (s : MuSig2) (i : Nat) (r1 r2 : List Nat) (s' : MuSig2),
        sessionListsLen s → MuSig2.set_secret s i r1 r2 = .ok s' →
        sessionListsLen s') ∧
    (∀ (s : MuSig2) (i : Nat) (p1 p2 : Pt) (s' : MuSig2),
        sessionListsLen s → MuSig2.set_nonce s i p1 p2 = .ok s' →
        sessionListsLen s') ∧
    (∀ (s : MuSig2) (m : List Nat),
        sessionListsLen s → sessionListsLen (MuSig2.set_msg s m)) ∧
    (∀ (s : MuSig2) (i : Nat) (pg : List Nat) (s' : MuSig2),
        sessionListsLen s → MuSig2.set_psig s i pg = .ok s' →
        sessionListsLen s') := by
  refine ⟨?_, ?_, ?_, ?_, ?_⟩
  · intro mg ms tw sp np b r h ps ex sg h1 h2 h3
    unfold mkMuSig2 sessionListsLen
    simp only [List.length_append, List.length_replicate]
    omega
  · intro s i r1 r2 s' hl h
    unfold MuSig2.set_secret at h
    split at h
    · split at h
      · split at h
        · refine len_set_nonce _ i _ _ s' ?_ h
          obtain ⟨hl1, hl2, hl3⟩ := hl
          exact ⟨by simpa using hl1, hl2, hl3⟩
        · exact absurd h (by simp)
        · exact absurd h (by simp)
      · exact absurd h (by simp)
    · exact absurd h (by simp)
  · exact fun s i p1 p2 s' hl h => len_set_nonce s i p1 p2 s' hl h
  · intro s m hl
    obtain ⟨hl1, hl2, hl3⟩ := hl
    exact ⟨hl1, hl2, by simp [MuSig2.set_msg]⟩
  · intro s i pg s' hl h
    obtain ⟨hl1, hl2, hl3⟩ := hl
    unfold MuSig2.set_psig at h
    split at h
    · split at h
      · injection h with h2
        subst h2
        exact ⟨hl1, hl2, by simpa using hl3⟩
      · exact absurd h (by simp)
    · exact absurd h (by simp)

theorem musig2_list_lengths_witness :
    sessionListsLen (mkMuSig2 musigW none none [] [] none none none [] none
      none) :=
  musig2_list_lengths.1 musigW none none [] [] none none none [] none none
    (by decide) (by decide) (by decide)

/-- C1 is false as stated: on the single-signer list holding the generator,
the multiplier actually computed differs from
`SHA256(H0 ‖ LE32(0)) mod n` with `H0 = SHA256(keyconcat)` — the index is
not hashed together with the base digest. -/
theorem musig_mul_claim_cex :
    musig_mul_list [keyW] ≠
      [fromBytesBE (sha256 (sha256 (keyagg_base [keyW]) ++ le32 0)) % secp_n]
    := by decide

/-- C1 (amended): multiplier i is `SHA256(keyconcat ‖ LE32(i)) mod n`, where
`keyconcat` is the concatenation of all signers' 33-byte compressed public
keys in list order: the little-endian index bytes extend the hash stream
holding the raw key concatenation (the `hashlib` state that `basehash.copy()`
duplicates), they are not appended to an already-computed base digest. -/
theorem musig_mul_spec (keys : List SignerKey) (i : Nat)
    (h : i < keys.length) :
    (musig_mul_list keys).get? i =
      some (fromBytesBE (sha256 (keyagg_base keys ++ le32 i)) % secp_n) := by
  unfold musig_mul_list
  rw [List.get?_map, List.get?_range h]
  rfl

theorem musig_mul_spec_witness :
    0 < [keyW].length ∧
    (musig_mul_list [keyW]).get? 0 =
      some (fromBytesBE (sha256 (keyagg_base [keyW] ++ le32 0)) % secp_n) :=
  ⟨by decide, musig_mul_spec [keyW] 0 (by decide)⟩

/-- What `calc_b_r` must produce on a session with all nonces and a 32-byte
message: the binding coefficient hashed from the compressed aggregate key,
the compressed nonce pairs in signer order and the message; the aggregate
nonce as the multi-scalar combination of the R1 points with weight 1 and
the R2 points with weight b; failure exactly on the point at infinity. -/
def CalcBRResult (s : MuSig2) (m : List Nat) : Prop :=
  let transcript := compress33 s.musig.pubkey ++
    (s.noncepairs.foldl (fun acc q =>
      acc ++ (match q with
              | some pq => compress33 pq.1 ++ compress33 pq.2
              | none => [])) []) ++ m
  let bv := fromBytesBE (sha256 transcript) % secp_n
  let rPt := secpMul
    ((s.noncepairs.map (fun q => (q.map (fun pq => pq.1), (1 : Int)))) ++
     (s.noncepairs.map (fun q => (q.map (fun pq => pq.2), (bv : Int)))))
  (∀ q, rPt = some q → onCurvePt q = true →
      s.calc_b_r = .ok { s with b := some bv, r := some (compress33 q) }) ∧
  (rPt = none → s.calc_b_r = .error .degenerateNonce)

theorem calc_b_r_spec (s : MuSig2) (m : List Nat)
    (hn : s.noncepairs.all (·.isSome) = true)
    (hm : s.msg = some m) (hml : m.length = 32) :
    CalcBRResult s m := by
  unfold CalcBRResult
  refine ⟨?_, ?_⟩
  · intro q hq hc
    simp only [MuSig2.calc_b_r, hn, hm, hml, compress33_length, hq, hc]
    simp
  · intro hq
    simp only [MuSig2.calc_b_r, hn, hm, hml, compress33_length, hq]
    simp

/-- What key aggregation must produce: failure on an infinite weighted sum;
otherwise the raw weighted sum `Σ mulᵢ·Pᵢ` kept as is (flag clear) when its
y is even, and negated with every multiplier replaced by `n - mulᵢ` and the
flag set when its y is odd — with the resulting aggregate key even-y either
way. -/
def MuSigAggResult (keys : List SignerKey) (tweak : List Nat) : Prop :=
  let mul := musig_mul_list keys
  let praw := secpMul ((keys.zip mul).map (fun km => (some km.1.pt, (km.2 : Int))))
  (praw = none → mkMuSig keys tweak = .error .invalidKey) ∧
  (∀ q, praw = some q →
    (hasEvenYPt q = true →
        mkMuSig keys tweak =
          .ok ⟨keys, tweak, mul, false, q, musig_pts keys mul⟩) ∧
    (hasEvenYPt q = false →
        mkMuSig keys tweak =
          .ok ⟨keys, tweak, mul.map (fun x => secp_n - x), true, pointNegPt q,
               musig_pts keys (mul.map (fun x => secp_n - x))⟩ ∧
        hasEvenYPt (pointNegPt q) = true))

theorem mkMuSig_spec (keys : List SignerKey) (tweak : List Nat) :
    MuSigAggResult keys tweak := by
  unfold MuSigAggResult
  refine ⟨?_, ?_⟩
  · intro hq
    simp only [mkMuSig, hq]
  · intro q hq
    refine ⟨?_, ?_⟩
    · intro he
      simp only [mkMuSig, hq, he]
      simp
    · intro he
      refine ⟨?_, ?_⟩
      · simp only [mkMuSig, hq, he]
        simp
      · obtain ⟨h1, h2⟩ := secpMul_some_red _ q hq
        have hodd : q.2 % 2 = 1 := by
          simp [hasEvenYPt] at he
          omega
        simp [hasEvenYPt, pointNegPt_even q h2 hodd]

theorem mkMuSig_spec_witness : MuSigAggResult [keyW] [] := mkMuSig_spec [keyW] []

/-- What `calc_pubkey` must produce on a session carrying tweak (neg, t):
the combination `sign·P + ((n + sign·t) mod n)·G` with `sign = (-1)^neg`
over the lifted aggregate point `P`, serialized as 0x02 and its
x-coordinate; a combination collapsing to infinity surfaces as the Python
`TypeError`. -/
def CalcPubkeyResult (s : MuSig2) (negf : Bool) (t : Nat) (P : Pt) : Prop :=
  let sgn : Int := if negf then -1 else 1
  let ts : Int := ((secp_n : Int) + sgn * (t : Int)) % (secp_n : Int)
  (∀ q, secpMul [(some P, sgn), (some gPt, ts)] = some q →
      s.calc_pubkey = .ok (2 :: toBytesBE 32 q.1)) ∧
  (secpMul [(some P, sgn), (some gPt, ts)] = none →
      s.calc_pubkey = .error .typeError)

theorem calc_pubkey_spec (s : MuSig2) (negf : Bool) (t : Nat) (P : Pt)
    (ht : s.pubkeytweak = some (negf, t))
    (heven : s.musig.pubkey.2 % 2 = 0)
    (hx : liftX (fromBytesBE (toBytesBE 32 s.musig.pubkey.1)) = some P) :
    CalcPubkeyResult s negf t P := by
  have hhead : (compress33 s.musig.pubkey).head?.getD 0 = 2 := by
    simp [compress33, heven]
  have hdrop : (compress33 s.musig.pubkey).drop 1 =
      toBytesBE 32 s.musig.pubkey.1 := by
    simp [compress33]
  unfold CalcPubkeyResult
  refine ⟨?_, ?_⟩
  · intro q hq
    unfold MuSig2.calc_pubkey
    rw [if_neg (by simp [hhead, compress33_length])]
    simp only [ht, hdrop, hx, hq]
  · intro hq
    unfold MuSig2.calc_pubkey
    rw [if_neg (by simp [hhead, compress33_length])]
    simp only [ht, hdrop, hx, hq]

/-- What `calc_sig` must produce on a complete session: `r_x ‖ s` with `s`
the partials summed mod n; with a tweak (neg, t) set, the one extra
contribution `partial_schnorr_sign(r_x, p_x, msg, t, None)` (zero nonce) is
added exactly once and the whole sum is negated mod n exactly when `neg` is
set. -/
def CalcSigResult (s : MuSig2) (rb m : List Nat) : Prop :=
  let ssum := (s.psigs.foldl
      (fun a q => a + (match q with | some bs => fromBytesBE bs | none => 0))
      0) % secp_n
  (s.pubkeytweak = none → s.calc_sig = .ok (rb.drop 1 ++ toBytesBE 32 ssum)) ∧
  (∀ negf t, s.pubkeytweak = some (negf, t) →
    ∀ pb, s.calc_pubkey = .ok pb →
      ∀ es, pschnorr_sign (rb.drop 1) (pb.drop 1) m (t : Int) none =
              .ok (some es) →
        s.calc_sig = .ok (rb.drop 1 ++ toBytesBE 32
          (if negf then secp_n - (ssum + fromBytesBE es) % secp_n
           else (ssum + fromBytesBE es) % secp_n)))

theorem calc_sig_spec (s : MuSig2) (rb m : List Nat)
    (hp : s.psigs.all (·.isSome) = true)
    (hr : s.r = some rb) (hm : s.msg = some m) :
    CalcSigResult s rb m := by
  unfold CalcSigResult
  refine ⟨?_, ?_⟩
  · intro htw
    simp only [MuSig2.calc_sig, hp, htw, hr]
    simp
  · intro negf t htw pb hpb es hes
    simp only [MuSig2.calc_sig, hp, htw, hr, hm, hpb, hes]
    simp

/-- A one-signer session with its nonce pair and message set, ready for
`calc_b_r`. -/
def sessBR : MuSig2 :=
  ⟨musigW, some msg0, none, [none], [some (gPt, gPt)], none, none, none,
   [none], none, none⟩

theorem calc_b_r_spec_witness :
    sessBR.noncepairs.all (·.isSome) = true ∧ sessBR.msg = some msg0 ∧
    msg0.length = 32 ∧ CalcBRResult sessBR msg0 :=
  ⟨by decide, rfl, by decide, calc_b_r_spec sessBR msg0 (by decide) rfl
    (by decide)⟩

/-- A one-signer session carrying the tweak (False, 1). -/
def sessTweakPos : MuSig2 :=
  ⟨musigW, some msg0, some (false, 1), [none], [none], none, none, none,
   [none], none, none⟩

theorem calc_pubkey_spec_witness :
    sessTweakPos.pubkeytweak = some (false, 1) ∧
    sessTweakPos.musig.pubkey.2 % 2 = 0 ∧
    liftX (fromBytesBE (toBytesBE 32 sessTweakPos.musig.pubkey.1)) =
      some gPt ∧
    CalcPubkeyResult sessTweakPos false 1 gPt :=
  ⟨rfl, by decide, by decide,
   calc_pubkey_spec sessTweakPos false 1 gPt rfl (by decide) (by decide)⟩

/-- A one-signer session with its aggregate nonce bytes and one partial
signature filled in, ready for `calc_sig`. -/
def sessSig : MuSig2 :=
  ⟨musigW, some msg0, none, [none], [some (gPt, gPt)], some 3,
   some (2 :: List.replicate 32 0), none, [some (toBytesBE 32 5)], none,
   none⟩

theorem calc_sig_spec_witness :
    sessSig.psigs.all (·.isSome) = true ∧
    sessSig.r = some (2 :: List.replicate 32 0) ∧
    sessSig.msg = some msg0 ∧
    CalcSigResult sessSig (2 :: List.replicate 32 0) msg0 :=
  ⟨by decide, rfl, rfl,
   calc_sig_spec sessSig (2 :: List.replicate 32 0) msg0 (by decide) rfl rfl⟩

/-- The tweaked signing key exactly as the claim words it:
`normalize_even_y((-1)^neg · P_internal + t·G)`, serialized 0x02 plus the
x-coordinate (even-y normalization does not change x). -/
def claimTweakPubkey (P : Pt) (negf : Bool) (t : Nat) : Option (List Nat) :=
  match pointAdd (pointMulInt (if negf then -1 else 1) (some P))
        (pointMulNat t (some gPt)) with
  | some q => some (2 :: toBytesBE 32 q.1)
  | none => none

/-- A one-signer session over the generator carrying the tweak (True, 2). -/
def sessTweakNeg : MuSig2 :=
  ⟨musigW, some msg0, some (true, 2), [none], [none], none, none, none,
   [none], none, none⟩

/-- C6 is false as stated: with the negation flag set and t = 2 over the
aggregate key G, the claim's formula gives normalize_even_y(-G + 2G) = G,
but the session computes the x of -G + (n-2)·G (the tweak scalar is negated
together with the point), which is the x of 3G, not of G. -/
theorem calc_pubkey_claim_cex :
    claimTweakPubkey gPt true 2 = some (2 :: toBytesBE 32 secp_gx) ∧
    sessTweakNeg.calc_pubkey ≠ .ok (2 :: toBytesBE 32 secp_gx) := by decide
